import Mathlib

/-!
Verification of the AEProject natural-language specification against the
repository's code.

The frontend form helpers (`nonEmpty`, `parseAmountLike`, `mergeContractSeed`,
`canSubmit` from `src/frontend/src/components/Forms/ContractForm.tsx` and
`KSForm.tsx`) are embedded directly from the TypeScript source.  The backend
core (text normalizer, intent classifier, completion state machine) is not
part of the source tree — only its REST API documentation is — so those
operations are modelled from the specification, as marked on each definition.

Conventions of the embedding:
* JavaScript values that the form helpers handle are `JVal`
  (`null`/`undefined` are collapsed into one constructor because every
  embedded function treats them identically); JavaScript objects are
  association lists (`JObj`) read through `List.lookup`, and object spread
  `\x7b...l, ...r\x7d` is modelled by an append that gives `r` priority under
  `List.lookup` (key insertion order, which no claim observes, is not kept).
* JavaScript numbers are modelled by `Rat` (exact rational arithmetic);
  where IEEE-754 behaviour is observable it is modelled explicitly and the
  approximation is stated in a comment at the definition.
* Strings are handled as `List Char` where the embedded code works
  character by character.
-/

namespace AEProject

/-! ## JavaScript string trimming -/

/-- JS whitespace for `String.prototype.trim` (the ASCII part; the exotic
Unicode whitespace JS also trims does not occur in any value the claims
touch). -/
def jsWs (c : Char) : Bool :=
  c == ' ' || c == '\t' || c == '\n' || c == '\r'

/-- `s.trim()` at character-list level: drop leading and trailing
whitespace. -/
def trimChars (l : List Char) : List Char :=
  ((l.dropWhile jsWs).reverse.dropWhile jsWs).reverse

/-- `s.trim()` on strings. -/
def jsTrim (s : String) : String :=
  ⟨trimChars s.data⟩

/-! ## JavaScript value model -/

/-- A JavaScript value as handled by the form helpers.  `jnull` covers both
`null` and `undefined`: every embedded function (`nonEmpty`,
`parseAmountLike`) treats the two identically. -/
inductive JVal where
  | jnull : JVal
  | str : String → JVal
  | num : Rat → JVal
  deriving DecidableEq, Repr

/-- A JavaScript object, as an association list of key/value pairs. -/
abbrev JObj := List (String × JVal)

/-- The predicate under which `nonEmpty` keeps an entry: the value is not
`null`/`undefined` and not a whitespace-only string.  Source:
`ContractForm.tsx` — `if (v === null || v === undefined) continue;
if (isEmptyStr(v)) continue;` with
`isEmptyStr = (v) => typeof v === 'string' && v.trim() === ''`. -/
def keptVal : JVal → Bool
  | .jnull => false
  | .str s => !(jsTrim s == "")
  | .num _ => true

/-- `nonEmpty` from `ContractForm.tsx` / `KSForm.tsx` / `CompanyForm.tsx`:
keeps only the entries whose value is non-null and not whitespace-only. -/
def nonEmpty (obj : JObj) : JObj :=
  obj.filter (fun p => keptVal p.2)

/-- JavaScript object spread `\x7b ...l, ...r \x7d`: on key collision `r`
wins.  Modelled as `r ++ l` under first-match `List.lookup` semantics (the
key ordering of the result, which no claim observes, differs from JS). -/
def mergeObj (l r : JObj) : JObj := r ++ l

/-- First-defined choice on options (`x` if present, else `y`). -/
def optOr (x y : Option α) : Option α :=
  match x with
  | some v => some v
  | none => y

/-- The `c2` block of `mergeContractSeed` (`ContractForm.tsx` lines 104–107)
and `mergeKSSeed` (`KSForm.tsx` lines 112–115):
`\x7b ...nonEmpty(provided_data), ...nonEmpty(additional_data) \x7d`. -/
def mergeProvidedAdditional (provided additional : JObj) : JObj :=
  mergeObj (nonEmpty provided) (nonEmpty additional)

/-- Lookup of a key in the `nonEmpty`-filtered view of an object. -/
def lookupKept (k : String) (o : JObj) : Option JVal :=
  List.lookup k (nonEmpty o)

/-- The merged seed `\x7b ...c3, ...c2, ...c1 \x7d` of `mergeContractSeed`
(`ContractForm.tsx` line 126): priority `contract_data` (`c1`) over
`provided/additional` (`c2`) over the entity-derived block (`c3`).  The
entity-derived block `c3` is taken here as an input object (its construction
from `ml_data.entities` selects values by fixed key preference and is not
needed by the claims); each layer is `nonEmpty`-filtered exactly as in the
source. -/
def mergedSeed (contractData provided additional entityBlock : JObj) : JObj :=
  mergeObj (mergeObj (nonEmpty entityBlock)
      (mergeProvidedAdditional provided additional))
    (nonEmpty contractData)

/-! ## `parseAmountLike` (ContractForm.tsx lines 69–84, KSForm.tsx lines 75–90) -/

/-- The character class kept by `s.replace(/[^\d.,-]/g, '')`. -/
def amountChar (c : Char) : Bool :=
  c.isDigit || c == '.' || c == ',' || c == '-'

/-- `s.replace(',', '.')` — JS `replace` with a string pattern replaces only
the first occurrence. -/
def replaceFirstComma : List Char → List Char
  | [] => []
  | c :: cs => if c == ',' then '.' :: cs else c :: replaceFirstComma cs

/-- Digit run to a natural number (the digits are already validated). -/
def digitsToNat (l : List Char) : Nat :=
  l.foldl (fun a c => 10 * a + (c.toNat - 48)) 0

/-- A JavaScript number arising from a decimal literal, represented
exactly: the value is `(-1)^neg · num / 10^pow`.  Decimal literals are
modelled with exact arithmetic rather than IEEE-754 doubles; where the
double representation itself is observable (the overflow-to-`Infinity`
threshold, the `toFixed` hand-off to exponential notation) the behaviour
is modelled explicitly on this exact value. -/
structure Dec where
  neg : Bool
  num : Nat
  pow : Nat
  deriving DecidableEq, Repr

/-- The JS test `x < 0` on a decimal value (`-0` is not below zero). -/
def Dec.isNeg (d : Dec) : Bool :=
  d.neg && d.num != 0

/-- Unsigned part of the JS `Number(s)` string-to-number conversion,
restricted to the character alphabet that can reach it here (digits, `.`,
`,`, `-`; the filter has already removed the letters that hexadecimal,
exponent or `Infinity` forms would need).  `Option.none` models `NaN`. -/
def jsNumUnsigned (body : List Char) : Option Dec :=
  let ip := body.takeWhile Char.isDigit
  match body.dropWhile Char.isDigit with
  | [] => if ip.isEmpty then none else some ⟨false, digitsToNat ip, 0⟩
  | '.' :: frac =>
    if frac.all Char.isDigit && !(ip.isEmpty && frac.isEmpty) then
      some ⟨false, digitsToNat ip * 10 ^ frac.length + digitsToNat frac, frac.length⟩
    else none
  | _ => none

/-- JS `Number(s)` on the post-filter alphabet: empty string is `0`, an
optional single leading minus, then an unsigned decimal.  `none` is `NaN`. -/
def jsNumber (l : List Char) : Option Dec :=
  match l with
  | [] => some ⟨false, 0, 0⟩
  | c :: rest =>
    if c == '-' then (jsNumUnsigned rest).map (fun d => ⟨true, d.num, d.pow⟩)
    else jsNumUnsigned (c :: rest)

/-- JS `isFinite` after `Number` conversion: `|x| < 2^1024`.  A decimal
literal at least that large overflows an IEEE-754 double to `Infinity`;
the exact rounding boundary (half a unit below `2^1024`), not observable
by any claim, is taken as `2^1024` itself. -/
def jsFinite (d : Dec) : Bool :=
  decide (d.num < 2 ^ 1024 * 10 ^ d.pow)

/-- JS `Number.prototype.toString` for the integral values `|x| ≥ 10^21`
that `toFixed` delegates to: sign, mantissa digits with the trailing zeros
stripped and a point after the first digit, then `e+` and the decimal
exponent.  Every double of that magnitude is an integer, hence the
truncating division; the digit generation uses the exact decimal digits,
which agrees with the shortest-digit generation of JS on the round values
relevant here. -/
def jsExpString (d : Dec) : String :=
  let sign := if d.isNeg then "-" else ""
  let ds : List Char := (toString (d.num / 10 ^ d.pow)).toList
  let mant : List Char := (ds.reverse.dropWhile (· == '0')).reverse
  let mantStr : String :=
    match mant with
    | [] => "0"
    | [c] => String.mk [c]
    | c :: rest => String.mk (c :: '.' :: rest)
  sign ++ mantStr ++ "e+" ++ toString (ds.length - 1)

/-- The fixed-notation branch of `Number.prototype.toFixed(2)`: a sign for
negative input, then the integer `n` closest to `100·|x|` (ties toward the
larger integer, per ECMA-262 21.1.3.3) — here
`n = ⌊(200·num + 10^pow) / (2·10^pow)⌋ = ⌊100·|x| + 1/2⌋` — printed with
its last two digits after a point. -/
def fixed2 (d : Dec) : String :=
  let sign := if d.isNeg then "-" else ""
  let n : Nat := (200 * d.num + 10 ^ d.pow) / (2 * 10 ^ d.pow)
  sign ++ toString (n / 100) ++ "." ++
    (if n % 100 < 10 then "0" ++ toString (n % 100) else toString (n % 100))

/-- `num.toFixed(2)`: fixed notation below `10^21`, otherwise ECMA-262
delegates to `Number::toString` (exponential form at that magnitude).
The branch condition `10^21 ≤ |x|` is `10^21 · 10^pow ≤ num`. -/
def toFixed2 (d : Dec) : String :=
  if 10 ^ 21 * 10 ^ d.pow ≤ d.num then jsExpString d else fixed2 d

/-- Stage 1 of `parseAmountLike`: `String(v).trim()` then
`s.replace(/[^\d.,-]/g, '')`. -/
def amountSift (l : List Char) : List Char :=
  (trimChars l).filter amountChar

/-- Stage 2 of `parseAmountLike`:
`if (s.includes(',') && !s.includes('.')) s = s.replace(',', '.')`. -/
def commaStage (s : List Char) : List Char :=
  if s.contains ',' && !(s.contains '.') then replaceFirstComma s else s

/-- Stage 3 of `parseAmountLike`: `const parts = s.split('.')`; when more
than two parts, `const dec = parts.pop(); s = parts.join('') + '.' + dec`. -/
def dotCollapse (s : List Char) : List Char :=
  let parts := s.splitOn '.'
  if 2 < parts.length
    then (parts.dropLast).flatten ++ '.' :: (parts.getLast?).getD []
    else s

/-- Stage 4 of `parseAmountLike`: `const num = Number(s);
if (!isFinite(num)) return ''; return num.toFixed(2)`. -/
def amountFormat (s : List Char) : String :=
  match jsNumber s with
  | none => ""
  | some q => if jsFinite q then toFixed2 q else ""

/-- Body of `parseAmountLike` on the character list of `String(v)`:
trim, strip everything but `[\d.,-]`, turn the first comma into a point
when no point is present, collapse extra points (keeping the last group as
the decimal part), convert with `Number`, and format with `toFixed(2)`
(`""` when the conversion gives `NaN` or an infinity). -/
def parseAmountChars (l : List Char) : String :=
  amountFormat (dotCollapse (commaStage (amountSift l)))

/-- `parseAmountLike` from `ContractForm.tsx` lines 69–84 (identical in
`KSForm.tsx` lines 75–90).  `none` models the `null`/`undefined` argument
(both return `''` through the first guard); a string argument is processed
as `String(v)` = itself. -/
def parseAmountLike : Option String → String
  | none => ""
  | some v => parseAmountChars v.toList

/-- `c.replace(',', '.')` applied to every character — used to state the
comma-as-decimal-point claim. -/
def commaToDot (c : Char) : Char :=
  if c == ',' then '.' else c

/-! ## Frontend submission gate (`canSubmit`) -/

/-- The string state of the contract form (`ContractForm.tsx`,
`SubmitContract`): every field is a string. -/
structure ContractFormState where
  contract_name : String
  contract_amount : String
  customer_name : String
  customer_inn : String
  contract_date : String
  deriving DecidableEq, Repr

/-- `canSubmit` from `ContractForm.tsx` lines 162–166: the four required
fields must be non-empty after trimming — nothing else is checked. -/
def canSubmit (f : ContractFormState) : Bool :=
  decide (0 < (jsTrim f.contract_name).length) &&
  decide (0 < (jsTrim f.contract_amount).length) &&
  decide (0 < (jsTrim f.customer_name).length) &&
  decide (0 < (jsTrim f.customer_inn).length)

/-! ## Completion state machine

Modelled from the spec: the backend implementation of
`POST /user/complete_data` is not part of the source tree (only its API
documentation, `src/unnamed/part_000` lines 511–618, is), so the operation
is modelled from spec §4.4 and the documented request/response shapes. -/

/-- A field→value mapping (`provided_data` / `additional_data`). -/
abbrev DataMap := List (String × String)

/-- The value of a field in a mapping, `""` when absent. -/
def lookupD (m : DataMap) (k : String) : String :=
  (List.lookup k m).getD ""

/-- Modelled from the spec: INN validation — exactly 10 or exactly 12
digits (spec §4.4; API documentation validation table «ИНН: 10 или 12
цифр»). -/
def innValid (v : String) : Bool :=
  v.toList.all Char.isDigit && (v.length == 10 || v.length == 12)

/-- Strict decimal parser for amount values: a non-empty digit run with an
optional point-separated non-empty fraction, valued `num / 10^pow`. -/
def parseDecimal (v : String) : Option Dec :=
  let l := v.toList
  let ip := l.takeWhile Char.isDigit
  match l.dropWhile Char.isDigit with
  | [] => if ip.isEmpty then none else some ⟨false, digitsToNat ip, 0⟩
  | '.' :: frac =>
    if frac.all Char.isDigit && !ip.isEmpty && !frac.isEmpty then
      some ⟨false, digitsToNat ip * 10 ^ frac.length + digitsToNat frac, frac.length⟩
    else none
  | _ => none

/-- Modelled from the spec: amount validation — parses as a positive
decimal within `[0.01, 999999999999.99]` (spec §4.4; API documentation
validation table).  With the value `num / 10^pow`, the bounds
`1/100 ≤ value ≤ 99999999999999/100` are the integer comparisons below. -/
def amountValid (v : String) : Bool :=
  match parseDecimal v with
  | none => false
  | some d => decide (10 ^ d.pow ≤ 100 * d.num ∧ 100 * d.num ≤ 99999999999999 * 10 ^ d.pow)

/-- Modelled from the spec: free-text validation — non-whitespace, within
the documented 500-character bound (spec §4.4; «Строковые поля: максимум
500 символов»). -/
def nameValid (v : String) : Bool :=
  !(jsTrim v == "") && v.length ≤ 500

/-- Modelled from the spec: per-field validation dispatch used when the
completion machine decides whether a merged field counts as filled. -/
def fieldFilled (field v : String) : Bool :=
  if field == "customer_inn" || field == "inn" then innValid v
  else if field == "contract_amount" || field == "session_amount"
      || field == "ks_amount" || field == "amount" then amountValid v
  else nameValid v

/-- Modelled from the spec: the `RequiredSchema` for `data_type="contract"`
(spec §3: `create_contract` requires these four fields, in this order). -/
def contractSchema : List String :=
  ["contract_name", "contract_amount", "customer_name", "customer_inn"]

/-- Modelled from the spec: per-`data_type` schema lookup; the three
documented data types, anything else is unsupported (spec §4.4 failure
semantics).  The `ks` and `company` field lists follow the documented
request examples. -/
def schemaFor : String → Option (List String)
  | "contract" => some contractSchema
  | "ks" => some ["session_name", "session_amount", "customer_name", "customer_inn"]
  | "company" => some ["company_name", "inn"]
  | _ => none

/-- Modelled from the spec: merge `additional_data` into `provided_data`,
`additional_data` winning on key collision (spec §4.4 step 1), under
first-match `List.lookup` semantics. -/
def mergeData (provided additional : DataMap) : DataMap :=
  additional ++ provided

/-- Modelled from the spec: the static suggestion template per missing
field (spec §4.4 step 3; the `customer_inn` text is the one shown in the
API documentation). -/
def suggestionFor : String → String
  | "customer_inn" => "Укажите ИНН заказчика (10 или 12 цифр)"
  | "customer_name" => "Укажите название организации заказчика"
  | "contract_name" => "Укажите название контракта"
  | "contract_amount" => "Укажите сумму контракта"
  | f => "Укажите " ++ f

/-- Result of one completion invocation. -/
structure CompletionResult where
  status : String
  mergedData : DataMap
  missingFields : List String
  suggestions : List String
  nextSteps : List String
  deriving DecidableEq, Repr

/-- Modelled from the spec: `complete_data` (spec §4.4; API documentation
`POST /user/complete_data`).  Merge, look up the schema, compute the
missing fields in schema order, and answer `needs_more_info` with one
suggestion per missing field, or `success` with the documented static next
steps.  Unknown `data_type` is a reported error, never a guessed schema. -/
def complete_data (data_type : String) (provided additional : DataMap) :
    Except String CompletionResult :=
  match schemaFor data_type with
  | none => .error "unsupported data type"
  | some schema =>
    let merged := mergeData provided additional
    let missing := schema.filter (fun f => !fieldFilled f (lookupD merged f))
    if missing.isEmpty then
      .ok ⟨"success", merged, [], [], ["Подтвердите данные", "Создать контракт"]⟩
    else
      .ok ⟨"needs_more_info", merged, missing, missing.map suggestionFor, []⟩

/-! ## ML operations

Modelled from the spec: the classifier service behind `/api/ml/predict`,
`/api/ml/predict/batch` and `/user/search` is not part of the source tree
(only its API documentation is), so the operations are modelled from spec
§§4.3, 5, 6 and 7. -/

/-- The `ml_data` block of the analysis envelope. -/
structure MLData where
  intent : String
  confidence : Rat
  entities : DataMap
  deriving DecidableEq, Repr

/-- Modelled from the spec: outcome of one classification attempt —
either a result from the loaded artifact, or a classification-dependent
failure (`ModelUnavailable` when no artifact is loaded, `InternalError` for
an unexpected inference failure; spec §7). -/
inductive ClassifyOutcome where
  | ok (intent : String) (confidence : Rat) (entities : DataMap)
  | modelUnavailable
  | internalError
  deriving DecidableEq, Repr

/-- Whether the outcome is a classification-dependent failure. -/
def ClassifyOutcome.isFailure : ClassifyOutcome → Bool
  | .ok _ _ _ => false
  | .modelUnavailable => true
  | .internalError => true

/-- The envelope returned by `analyze_query` (spec §6). -/
structure Envelope where
  status : String
  responseType : String
  responseData : String
  ml_data : MLData
  deriving DecidableEq, Repr

/-- Modelled from the spec: `analyze_query` reduced to how it maps the
classification outcome into the envelope (spec §7 propagation policy; API
documentation «Ошибка ML модели»).  It is a total function: every failure
is turned into a structured `status="error"` envelope with the explicit
`intent="error"`, `confidence=0.0`, empty-entities `ml_data` block, and no
exception escapes. -/
def analyze_query (o : ClassifyOutcome) : Envelope :=
  match o with
  | .ok i c e => ⟨"success", i, "", ⟨i, c, e⟩⟩
  | .modelUnavailable => ⟨"error", "error", "ML модель не инициализирована", ⟨"error", 0, []⟩⟩
  | .internalError => ⟨"error", "error", "Внутренняя ошибка сервера", ⟨"error", 0, []⟩⟩

/-- Modelled from the spec: the length validation of `POST /api/ml/predict`
— text length 1–1000 characters, violation is a structured validation
error (spec §6; API documentation «Текст для анализа (1-1000 символов)»). -/
def validate_text (t : String) : Except String String :=
  if t.length < 1 then .error "Текст не может быть пустым"
  else if 1000 < t.length then .error "Текст слишком длинный (максимум 1000 символов)"
  else .ok t

/-- Modelled from the spec: `classify` = length validation followed by the
core inference (`core`, an arbitrary total function of the text standing
for inference against the loaded artifact). -/
def classify (core : String → MLData) (t : String) : Except String MLData :=
  (validate_text t).map core

/-- Per-element outcome inside a batch: a failure on one text yields a
failure marker for that element only (spec §5: no partial-failure
propagation). -/
inductive BatchItem where
  | success (r : MLData)
  | failure (err : String)
  deriving DecidableEq, Repr

/-- Modelled from the spec: classification of one batch element, with its
own success/failure outcome (`coreE` may fail per text). -/
def classifyOne (coreE : String → Except String MLData) (t : String) : BatchItem :=
  match coreE t with
  | .ok r => .success r
  | .error e => .failure e

/-- The batch response shape (`results`, `total_processed`). -/
structure BatchResult where
  results : List BatchItem
  total_processed : Nat
  deriving DecidableEq, Repr

/-- Modelled from the spec: `classify_batch` — batch size 1–10 validated,
then the texts are classified independently, output order matching input
order (spec §5; API documentation `POST /api/ml/predict/batch`). -/
def classify_batch (coreE : String → Except String MLData) (texts : List String) :
    Except String BatchResult :=
  if texts.length < 1 ∨ 10 < texts.length then .error "Количество текстов должно быть от 1 до 10"
  else .ok ⟨texts.map (classifyOne coreE), texts.length⟩

/-- A concrete per-text core used to witness the batch theorem: fails on
the text `"bad"`, succeeds elsewhere. -/
def demoCore (t : String) : Except String MLData :=
  if t == "bad" then .error "внутренняя ошибка" else .ok ⟨"help", 9 / 10, []⟩

/-! ## Text normalizer

Modelled from the spec: the normalizer implementation is not part of the
source tree, so `normalize` is modelled from spec §4.1 — lowercase,
collapse whitespace, strip characters outside the retained set, and replace
tokens found in the correction dictionary by whole-token matching. -/

/-- Modelled from the spec: lowercasing for the target locale — ASCII
`A–Z`, Cyrillic `А–Я` and `Ё` map to their lowercase forms, everything
else is unchanged. -/
def toLowerRu (c : Char) : Char :=
  if 65 ≤ c.toNat ∧ c.toNat ≤ 90 then Char.ofNat (c.toNat + 32)
  else if 1040 ≤ c.toNat ∧ c.toNat ≤ 1071 then Char.ofNat (c.toNat + 32)
  else if c.toNat = 1025 then Char.ofNat 1105
  else c

/-- Modelled from the spec: the characters retained inside tokens —
digits, lowercase ASCII and Cyrillic letters, and the retained punctuation
`,`/`-`/`.` (spec §4.1: characters outside the retained set are
stripped). -/
def allowedChar (c : Char) : Bool :=
  decide ((48 ≤ c.toNat ∧ c.toNat ≤ 57) ∨ (97 ≤ c.toNat ∧ c.toNat ≤ 122) ∨
    (1072 ≤ c.toNat ∧ c.toNat ≤ 1103) ∨ c.toNat = 1105 ∨
    c.toNat = 44 ∨ c.toNat = 45 ∨ c.toNat = 46)

/-- A character surviving the strip: retained, or a space (the token
separator, collapsed later). -/
def keepChar (c : Char) : Bool :=
  allowedChar c || c == ' '

/-- Lowercase then strip: the character-level phase of `normalize`. -/
def cleanChars (l : List Char) : List Char :=
  (l.map toLowerRu).filter keepChar

/-- Split into whitespace-separated tokens, collapsing runs of spaces
(empty pieces are dropped). -/
def toks (l : List Char) : List (List Char) :=
  (l.splitOn ' ').filter (fun t => !t.isEmpty)

/-- Join tokens back with single spaces. -/
def joinTokens : List (List Char) → List Char
  | [] => []
  | [t] => t
  | t :: ts => t ++ ' ' :: joinTokens ts

/-- Modelled from the spec: a representative correction dictionary
(misspelling → canonical form; the real dictionary is load-time
configuration of the classifier with 25 entries per the diagnostic
endpoint — its exact content is not in the source tree). -/
def corrections : List (List Char × List Char) :=
  [("кантракт".toList, "контракт".toList),
   ("догавор".toList, "договор".toList),
   ("сделай".toList, "создай".toList)]

/-- Whole-token correction: a token found in the dictionary is replaced by
its canonical form, any other token is unchanged (spec §4.1: whole-token
matching, not substring). -/
def correctToken (t : List Char) : List Char :=
  match List.lookup t corrections with
  | some v => v
  | none => t

/-- The token list of a text after lowercasing, stripping, whitespace
collapsing and correction. -/
def tokensOf (l : List Char) : List (List Char) :=
  (toks (cleanChars l)).map correctToken

/-- Modelled from the spec: `normalize` at character-list level — clean,
tokenize, correct each token, join with single spaces. -/
def normChars (l : List Char) : List Char :=
  joinTokens (tokensOf l)

/-- Modelled from the spec: `normalize(raw) -> string` (spec §4.1).
Total by construction: defined for every string, including the empty
string. -/
def normalize (s : String) : String :=
  ⟨normChars s.data⟩

/-! ## Shared helper lemmas -/

theorem optOr_assoc (x y z : Option α) :
    optOr (optOr x y) z = optOr x (optOr y z) := by
  cases x <;> rfl

theorem optOr_none (y : Option α) : optOr none y = y := rfl

theorem lookup_append {α β : Type} [BEq α] (k : α) (l r : List (α × β)) :
    List.lookup k (l ++ r) = optOr (List.lookup k l) (List.lookup k r) := by
  induction l with
  | nil => rfl
  | cons p l ih =>
    rcases p with ⟨a, b⟩
    by_cases h : k == a
    · simp [List.lookup, h, optOr]
    · simp only [List.cons_append, List.lookup, h]
      exact ih

theorem lookup_nonEmpty_kept (k : String) (o : JObj) (v : JVal)
    (h : List.lookup k (nonEmpty o) = some v) : keptVal v = true := by
  induction o with
  | nil => simp [nonEmpty] at h
  | cons p o ih =>
    rcases p with ⟨a, b⟩
    by_cases hb : keptVal b
    · by_cases hk : k == a
      · simp [nonEmpty, List.filter, hb, List.lookup, hk] at h
        exact h ▸ hb
      · simp [nonEmpty, List.filter, hb, List.lookup, hk] at h
        exact ih (by simpa [nonEmpty] using h)
    · simp only [nonEmpty, List.filter, hb] at h
      exact ih (by simpa [nonEmpty] using h)

/-! ## Claim theorems -/

/-- Claim C1: completion on `data_type="contract"` — with the documented
`provided_data` (name, amount) and `additional_data` (customer name, a
valid 10-digit INN) the result is `success` and the merged data holds all
four required fields; with `customer_inn` omitted the result is
`needs_more_info` with `missing_fields = ["customer_inn"]` and one
suggestion per missing field. -/
theorem completion_contract_scenarios :
    (∃ r, complete_data "contract"
        [("contract_name", "канцтовары"), ("contract_amount", "50000.0")]
        [("customer_name", "ООО Ромашка"), ("customer_inn", "1234567890")] = .ok r ∧
      r.status = "success" ∧
      lookupD r.mergedData "contract_name" = "канцтовары" ∧
      lookupD r.mergedData "contract_amount" = "50000.0" ∧
      lookupD r.mergedData "customer_name" = "ООО Ромашка" ∧
      lookupD r.mergedData "customer_inn" = "1234567890") ∧
    (∃ r, complete_data "contract"
        [("contract_name", "канцтовары"), ("contract_amount", "50000.0")]
        [("customer_name", "ООО Ромашка")] = .ok r ∧
      r.status = "needs_more_info" ∧
      r.missingFields = ["customer_inn"] ∧
      r.suggestions = ["Укажите ИНН заказчика (10 или 12 цифр)"] ∧
      r.suggestions.length = r.missingFields.length) := by
  constructor
  · refine ⟨⟨"success",
      [("customer_name", "ООО Ромашка"), ("customer_inn", "1234567890"),
       ("contract_name", "канцтовары"), ("contract_amount", "50000.0")],
      [], [], ["Подтвердите данные", "Создать контракт"]⟩, ?_, ?_, ?_, ?_, ?_, ?_⟩
    · rfl
    all_goals decide
  · refine ⟨⟨"needs_more_info",
      [("customer_name", "ООО Ромашка"),
       ("contract_name", "канцтовары"), ("contract_amount", "50000.0")],
      ["customer_inn"], ["Укажите ИНН заказчика (10 или 12 цифр)"], []⟩,
      ?_, ?_, ?_, ?_, ?_⟩
    · rfl
    all_goals decide

/-- Claim C4: on a classification-dependent failure the envelope has
`status = "error"` and `ml_data` exactly
`{intent: "error", confidence: 0.0, entities: {}}`; `analyze_query` is a
total function of the outcome, so no exception propagates. -/
theorem analyze_query_error_envelope (o : ClassifyOutcome)
    (h : o.isFailure = true) :
    (analyze_query o).status = "error" ∧
    (analyze_query o).ml_data = ⟨"error", 0, []⟩ := by
  cases o with
  | ok i c e => simp [ClassifyOutcome.isFailure] at h
  | modelUnavailable => exact ⟨rfl, rfl⟩
  | internalError => exact ⟨rfl, rfl⟩

/-- Witness for C4 at the `modelUnavailable` outcome. -/
theorem analyze_query_error_envelope_witness :
    (analyze_query .modelUnavailable).status = "error" ∧
    (analyze_query .modelUnavailable).ml_data = ⟨"error", 0, []⟩ :=
  analyze_query_error_envelope .modelUnavailable rfl

/-- Claim C7: `classify` rejects exactly the texts whose length is outside
1–1000, as a structured `Except.error` (never an exception), and accepts
every length in between whatever the core returns. -/
theorem classify_length_validation (core : String → MLData) (t : String) :
    ((∃ e, classify core t = .error e) ↔ (t.length = 0 ∨ 1000 < t.length)) ∧
    (classify core t = .ok (core t) ↔ (1 ≤ t.length ∧ t.length ≤ 1000)) := by
  unfold classify validate_text
  split_ifs with h1 h2
  · refine ⟨⟨fun _ => ?_, fun _ => ⟨_, rfl⟩⟩, ⟨fun h => ?_, fun h => ?_⟩⟩
    · omega
    · exact absurd h (by simp [Except.map])
    · omega
  · refine ⟨⟨fun _ => ?_, fun _ => ⟨_, rfl⟩⟩, ⟨fun h => ?_, fun h => ?_⟩⟩
    · omega
    · exact absurd h (by simp [Except.map])
    · omega
  · refine ⟨⟨fun h => ?_, fun h => ?_⟩, ⟨fun _ => ?_, fun _ => rfl⟩⟩
    · obtain ⟨e, he⟩ := h
      exact absurd he (by simp [Except.map])
    · omega
    · omega

/-- Claim C8: for a batch of 1 to 10 texts, `classify_batch` returns a
result list of the same length whose `i`-th element is the classification
of the `i`-th input text; each element carries its own success/failure
outcome (`classifyOne`), so one failing text never aborts the others. -/
theorem classify_batch_order (coreE : String → Except String MLData)
    (texts : List String) (h1 : 1 ≤ texts.length) (h2 : texts.length ≤ 10) :
    ∃ b, classify_batch coreE texts = .ok b ∧
      b.results.length = texts.length ∧
      b.total_processed = texts.length ∧
      ∀ i (hi : i < texts.length),
        b.results[i]? = some (classifyOne coreE (texts.get ⟨i, hi⟩)) := by
  refine ⟨⟨texts.map (classifyOne coreE), texts.length⟩, ?_, by simp, rfl, ?_⟩
  · unfold classify_batch
    rw [if_neg (by omega)]
  · intro i hi
    simp [List.getElem?_map, List.getElem?_eq_getElem hi, List.get_eq_getElem]

/-- Witness for C8: a two-text batch where the second text fails; the
theorem applies and each element is its own `classifyOne` outcome. -/
theorem classify_batch_order_witness :
    ∃ b, classify_batch demoCore ["привет", "bad"] = .ok b ∧
      b.results.length = ["привет", "bad"].length ∧
      b.total_processed = ["привет", "bad"].length ∧
      ∀ i (hi : i < ["привет", "bad"].length),
        b.results[i]? = some (classifyOne demoCore (["привет", "bad"].get ⟨i, hi⟩)) :=
  classify_batch_order demoCore ["привет", "bad"] (by decide) (by decide)

/-- Claim C2 counterexample: a key present only in `provided_data` but with
a whitespace-only value is dropped by the `nonEmpty` filter, not carried
over unchanged — the merge of `{contract_date: " "}` with `{}` is the
empty object. -/
theorem merge_drops_whitespace_only_entry :
    mergeProvidedAdditional [("contract_date", JVal.str " ")] [] = [] ∧
    List.lookup "contract_date"
      (mergeProvidedAdditional [("contract_date", JVal.str " ")] []) = none := by
  decide

/-- Claim C2 (amended): after each side is `nonEmpty`-filtered (dropping
null/undefined and whitespace-only entries), `additional_data` wins on key
collision and an entry surviving the filter on only one side is carried
over unchanged: the merged lookup of every key is the filtered
`additional_data` lookup, falling back to the filtered `provided_data`
lookup. -/
theorem merge_additional_wins (provided additional : JObj) (k : String) :
    List.lookup k (mergeProvidedAdditional provided additional) =
      optOr (lookupKept k additional) (lookupKept k provided) := by
  unfold mergeProvidedAdditional mergeObj lookupKept
  exact lookup_append k (nonEmpty additional) (nonEmpty provided)

/-- Claim C9: in the layered seed merge every source block is
`nonEmpty`-filtered before merging, so the merged lookup of every key is
the priority-ordered choice among the filtered lookups (an empty-string or
null value in a higher-priority source is filtered out and can never mask
a lower-priority value, and a key with no surviving value is absent), and
every value surviving in the merge is a kept (non-null, non-whitespace)
value. -/
theorem seed_filters_and_never_masks (cd pd ad ent : JObj) (k : String) :
    List.lookup k (mergedSeed cd pd ad ent) =
      optOr (lookupKept k cd)
        (optOr (lookupKept k ad) (optOr (lookupKept k pd) (lookupKept k ent))) ∧
    (∀ v, List.lookup k (mergedSeed cd pd ad ent) = some v → keptVal v = true) := by
  have hchar : List.lookup k (mergedSeed cd pd ad ent) =
      optOr (lookupKept k cd)
        (optOr (lookupKept k ad) (optOr (lookupKept k pd) (lookupKept k ent))) := by
    unfold mergedSeed mergeObj mergeProvidedAdditional mergeObj lookupKept
    rw [lookup_append, lookup_append, lookup_append, optOr_assoc]
  refine ⟨hchar, fun v hv => ?_⟩
  rw [hchar] at hv
  unfold optOr at hv
  rcases h1 : lookupKept k cd with _ | v1
  · rw [h1] at hv
    rcases h2 : lookupKept k ad with _ | v2
    · rw [h2] at hv
      rcases h3 : lookupKept k pd with _ | v3
      · rw [h3] at hv
        exact lookup_nonEmpty_kept k ent v hv
      · rw [h3] at hv
        cases hv
        exact lookup_nonEmpty_kept k pd v h3
    · rw [h2] at hv
      cases hv
      exact lookup_nonEmpty_kept k ad v h2
  · rw [h1] at hv
    cases hv
    exact lookup_nonEmpty_kept k cd v h1

/-- Witness for C9 at a concrete seed: the surviving value for
`contract_name` is a kept value. -/
theorem seed_filters_witness : keptVal (JVal.str "канцтовары") = true :=
  (seed_filters_and_never_masks
      [("contract_name", JVal.str "канцтовары")] [] [] [] "contract_name").2
    (JVal.str "канцтовары") (by decide)

/-- Claim C3 counterexample: a 5-digit `customer_inn` is not 10 or 12
digits, yet `canSubmit` is true for an otherwise-filled form — the value
can be submitted. -/
theorem canSubmit_accepts_short_inn :
    canSubmit ⟨"канцтовары", "50000.0", "ООО Ромашка", "12345", ""⟩ = true ∧
    innValid "12345" = false := by
  decide

set_option maxRecDepth 8000 in
/-- Claim C3 (amended): a non-empty `customer_inn` that fails the 10-or-12
digit rule is still reported missing by the completion validation (it does
not count toward completeness), but the frontend `canSubmit` gate only
requires the field to be non-empty after trimming, so such a value can be
submitted. -/
theorem inn_invalid_missing_yet_submittable (v : String)
    (hne : jsTrim v ≠ "") (hinn : innValid v = false) :
    (∃ r, complete_data "contract"
        [("contract_name", "канцтовары"), ("contract_amount", "50000.0"),
         ("customer_name", "ООО Ромашка")]
        [("customer_inn", v)] = .ok r ∧
      r.status = "needs_more_info" ∧ r.missingFields = ["customer_inn"]) ∧
    canSubmit ⟨"канцтовары", "50000.0", "ООО Ромашка", v, ""⟩ = true := by
  constructor
  · have hl1 : lookupD (mergeData
        [("contract_name", "канцтовары"), ("contract_amount", "50000.0"),
         ("customer_name", "ООО Ромашка")] [("customer_inn", v)]) "contract_name" =
        "канцтовары" := rfl
    have hl2 : lookupD (mergeData
        [("contract_name", "канцтовары"), ("contract_amount", "50000.0"),
         ("customer_name", "ООО Ромашка")] [("customer_inn", v)]) "contract_amount" =
        "50000.0" := rfl
    have hl3 : lookupD (mergeData
        [("contract_name", "канцтовары"), ("contract_amount", "50000.0"),
         ("customer_name", "ООО Ромашка")] [("customer_inn", v)]) "customer_name" =
        "ООО Ромашка" := rfl
    have hl4 : lookupD (mergeData
        [("contract_name", "канцтовары"), ("contract_amount", "50000.0"),
         ("customer_name", "ООО Ромашка")] [("customer_inn", v)]) "customer_inn" =
        v := rfl
    have hmiss : contractSchema.filter
        (fun f => !fieldFilled f (lookupD (mergeData
          [("contract_name", "канцтовары"), ("contract_amount", "50000.0"),
           ("customer_name", "ООО Ромашка")] [("customer_inn", v)]) f)) =
        ["customer_inn"] := by
      simp only [contractSchema, List.filter_cons, List.filter_nil, hl1, hl2, hl3, hl4,
        show fieldFilled "contract_name" "канцтовары" = true from by decide,
        show fieldFilled "contract_amount" "50000.0" = true from by decide,
        show fieldFilled "customer_name" "ООО Ромашка" = true from by decide,
        show fieldFilled "customer_inn" v = innValid v from rfl, hinn]
      decide
    refine ⟨⟨"needs_more_info",
        mergeData [("contract_name", "канцтовары"), ("contract_amount", "50000.0"),
          ("customer_name", "ООО Ромашка")] [("customer_inn", v)],
        ["customer_inn"], ["Укажите ИНН заказчика (10 или 12 цифр)"], []⟩, ?_, rfl, rfl⟩
    simp only [complete_data, schemaFor, hmiss]
    rfl
  · have hd : (jsTrim v).data ≠ [] := fun h => hne (@String.ext (jsTrim v) "" h)
    have hlen : 0 < (jsTrim v).length := List.length_pos.mpr hd
    simp only [canSubmit, Bool.and_eq_true, decide_eq_true_eq]
    exact ⟨⟨⟨by decide, by decide⟩, by decide⟩, hlen⟩

/-- Witness for the amended C3 at the concrete 5-digit INN `"12345"`. -/
theorem inn_invalid_missing_yet_submittable_witness :
    (∃ r, complete_data "contract"
        [("contract_name", "канцтовары"), ("contract_amount", "50000.0"),
         ("customer_name", "ООО Ромашка")]
        [("customer_inn", "12345")] = .ok r ∧
      r.status = "needs_more_info" ∧ r.missingFields = ["customer_inn"]) ∧
    canSubmit ⟨"канцтовары", "50000.0", "ООО Ромашка", "12345", ""⟩ = true :=
  inn_invalid_missing_yet_submittable "12345" (by decide) (by decide)

theorem two_digit_length : ∀ m : Nat, m < 100 →
    (if m < 10 then "0" ++ toString m else toString m).length = 2 := by
  decide

theorem fixed2_shape (d : Dec) :
    ∃ ip fr : String, fixed2 d = ip ++ "." ++ fr ∧ fr.length = 2 := by
  refine ⟨(if d.isNeg then "-" else "") ++
      toString ((200 * d.num + 10 ^ d.pow) / (2 * 10 ^ d.pow) / 100),
    if (200 * d.num + 10 ^ d.pow) / (2 * 10 ^ d.pow) % 100 < 10
      then "0" ++ toString ((200 * d.num + 10 ^ d.pow) / (2 * 10 ^ d.pow) % 100)
      else toString ((200 * d.num + 10 ^ d.pow) / (2 * 10 ^ d.pow) % 100), rfl, ?_⟩
  exact two_digit_length _ (Nat.mod_lt _ (by positivity))

set_option maxRecDepth 100000 in
/-- Claim C10 counterexample: on the 22-digit input the parsed value is
`10^21`, `isFinite` holds, and `toFixed(2)` delegates to exponential
notation — the output `"1e+21"` is neither empty nor a decimal with two
fraction digits (it contains no decimal point at all). -/
theorem parseAmountLike_exponential_output :
    parseAmountLike (some "1000000000000000000000") = "1e+21" ∧
    ('.' ∈ "1e+21".toList) = False ∧ "1e+21" ≠ "" := by
  refine ⟨by decide, by simp, by decide⟩

/-- Claim C10 (amended): `parseAmountLike` is total with a fixed output
shape — for every input (null/undefined or any string) the result is the
empty string, or the fixed two-fraction-digit rendering `fixed2` of a
parsed value below `10^21`, or (for parsed values of magnitude at least
`10^21`) the JS exponential notation `jsExpString` of the value. -/
theorem parseAmountLike_shape (v : Option String) :
    parseAmountLike v = "" ∨
    (∃ d : Dec, d.num < 10 ^ 21 * 10 ^ d.pow ∧ parseAmountLike v = fixed2 d ∧
      ∃ ip fr : String, fixed2 d = ip ++ "." ++ fr ∧ fr.length = 2) ∨
    (∃ d : Dec, 10 ^ 21 * 10 ^ d.pow ≤ d.num ∧ parseAmountLike v = jsExpString d) := by
  cases v with
  | none => exact Or.inl rfl
  | some s =>
    have hps : parseAmountLike (some s) =
        amountFormat (dotCollapse (commaStage (amountSift s.toList))) := rfl
    rw [hps]
    generalize dotCollapse (commaStage (amountSift s.toList)) = l
    cases hj : jsNumber l with
    | none => exact Or.inl (by simp [amountFormat, hj])
    | some d =>
      by_cases hf : jsFinite d
      · have hfmt : amountFormat l = toFixed2 d := by simp [amountFormat, hj, hf]
        by_cases hbig : 10 ^ 21 * 10 ^ d.pow ≤ d.num
        · refine Or.inr (Or.inr ⟨d, hbig, ?_⟩)
          rw [hfmt, toFixed2, if_pos hbig]
        · refine Or.inr (Or.inl ⟨d, by omega, ?_, fixed2_shape d⟩)
          rw [hfmt, toFixed2, if_neg hbig]
      · exact Or.inl (by simp [amountFormat, hj, hf])

theorem not_amountChar_of_jsWs {c : Char} (h : jsWs c = true) :
    amountChar c = false := by
  simp only [jsWs, Bool.or_eq_true, beq_iff_eq] at h
  rcases h with ((h | h) | h) | h <;> subst h <;> decide

theorem jsWs_ne_of_amountChar {c x : Char} (hx : amountChar x = true)
    (h : jsWs c = true) : c ≠ x := by
  intro he
  subst he
  rw [not_amountChar_of_jsWs h] at hx
  cases hx

theorem count_dropWhile_of_disjoint {q : Char → Bool} {x : Char}
    (h : ∀ c, q c = true → c ≠ x) :
    ∀ l : List Char, (l.dropWhile q).count x = l.count x := by
  intro l
  induction l with
  | nil => rfl
  | cons a l ih =>
    by_cases ha : q a
    · rw [List.dropWhile_cons_of_pos ha, ih, List.count_cons,
        if_neg (by simpa using (h a ha))]
      rfl
    · rw [List.dropWhile_cons_of_neg ha]

theorem count_trimChars {x : Char} (hx : amountChar x = true) (l : List Char) :
    (trimChars l).count x = l.count x := by
  unfold trimChars
  rw [List.count_reverse, count_dropWhile_of_disjoint (fun c hc => jsWs_ne_of_amountChar hx hc),
    List.count_reverse, count_dropWhile_of_disjoint (fun c hc => jsWs_ne_of_amountChar hx hc)]

theorem count_amountSift {x : Char} (hx : amountChar x = true) (l : List Char) :
    (amountSift l).count x = l.count x := by
  unfold amountSift
  rw [List.count_filter (by simpa using hx), count_trimChars hx]

theorem mem_of_mem_trimChars {x : Char} {l : List Char} (h : x ∈ trimChars l) :
    x ∈ l := by
  unfold trimChars at h
  rw [List.mem_reverse] at h
  have h2 := (List.dropWhile_sublist jsWs).subset h
  rw [List.mem_reverse] at h2
  exact (List.dropWhile_sublist jsWs).subset h2

theorem mem_of_mem_amountSift {x : Char} {l : List Char} (h : x ∈ amountSift l) :
    x ∈ l :=
  mem_of_mem_trimChars (List.mem_of_mem_filter h)

theorem replaceFirstComma_eq_map {l : List Char} (h : l.count ',' = 1) :
    replaceFirstComma l = l.map commaToDot := by
  induction l with
  | nil => rfl
  | cons c cs ih =>
    by_cases hc : c = ','
    · subst hc
      have h0 : cs.count ',' = 0 := by simpa [List.count_cons] using h
      have hmap : cs.map commaToDot = cs := by
        have hnm : ',' ∉ cs := by
          intro hm
          rw [List.count_eq_zero] at h0
          exact h0 hm
        calc cs.map commaToDot = cs.map id := by
              refine List.map_congr_left fun d hd => ?_
              have : d ≠ ',' := fun he => (he ▸ hnm) hd
              simp [commaToDot, this]
          _ = cs := List.map_id cs
      simp [replaceFirstComma, commaToDot, hmap]
    · have h1 : cs.count ',' = 1 := by
        simpa [List.count_cons, hc] using h
      simp [replaceFirstComma, commaToDot, hc, ih h1]

theorem mem_of_mem_splitOnP {p : Char → Bool} :
    ∀ {l t : List Char} {x : Char},
      t ∈ List.splitOnP p l → x ∈ t → x ∈ l ∧ p x = false := by
  intro l
  induction l with
  | nil =>
    intro t x ht hx
    rw [List.splitOnP_nil] at ht
    rcases List.mem_singleton.mp ht with rfl
    cases hx
  | cons a l ih =>
    intro t x ht hx
    rw [List.splitOnP_cons] at ht
    by_cases hpa : p a
    · rw [if_pos hpa] at ht
      rcases List.mem_cons.mp ht with rfl | ht'
      · cases hx
      · obtain ⟨hm, hp⟩ := ih ht' hx
        exact ⟨List.mem_cons_of_mem a hm, hp⟩
    · rw [if_neg hpa] at ht
      cases hsp : List.splitOnP p l with
      | nil => exact absurd hsp (List.splitOnP_ne_nil p l)
      | cons hd tl =>
        rw [hsp] at ht
        simp only [List.modifyHead] at ht
        rcases List.mem_cons.mp ht with rfl | ht'
        · rcases List.mem_cons.mp hx with rfl | hx'
          · exact ⟨List.mem_cons_self x l, by simpa using hpa⟩
          · obtain ⟨hm, hp⟩ := ih (hsp ▸ List.mem_cons_self hd tl) hx'
            exact ⟨List.mem_cons_of_mem a hm, hp⟩
        · obtain ⟨hm, hp⟩ := ih (hsp ▸ List.mem_cons_of_mem hd ht') hx
          exact ⟨List.mem_cons_of_mem a hm, hp⟩

theorem exists_mem_splitOnP {p : Char → Bool} :
    ∀ {l : List Char} {x : Char},
      x ∈ l → p x = false → ∃ t ∈ List.splitOnP p l, x ∈ t := by
  intro l
  induction l with
  | nil => intro x hx; cases hx
  | cons a l ih =>
    intro x hx hpx
    rw [List.splitOnP_cons]
    by_cases hpa : p a
    · rw [if_pos hpa]
      rcases List.mem_cons.mp hx with rfl | hx'
      · rw [hpa] at hpx; cases hpx
      · obtain ⟨t, ht, hxt⟩ := ih hx' hpx
        exact ⟨t, List.mem_cons_of_mem _ ht, hxt⟩
    · rw [if_neg hpa]
      cases hsp : List.splitOnP p l with
      | nil => exact absurd hsp (List.splitOnP_ne_nil p l)
      | cons hd tl =>
        simp only [List.modifyHead]
        rcases List.mem_cons.mp hx with rfl | hx'
        · exact ⟨x :: hd, List.mem_cons_self _ _, List.mem_cons_self x hd⟩
        · obtain ⟨t, ht, hxt⟩ := ih hx' hpx
          rw [hsp] at ht
          rcases List.mem_cons.mp ht with rfl | ht'
          · exact ⟨a :: t, List.mem_cons_self _ _, List.mem_cons_of_mem a hxt⟩
          · exact ⟨t, List.mem_cons_of_mem _ ht', hxt⟩

theorem jsNumUnsigned_none_of_comma {body : List Char} (h : ',' ∈ body) :
    jsNumUnsigned body = none := by
  have hrest : ',' ∈ body.dropWhile Char.isDigit := by
    have hsplit := List.takeWhile_append_dropWhile (p := Char.isDigit) (l := body)
    rcases List.mem_append.mp (hsplit ▸ h) with hte | hdr
    · exact absurd (List.mem_takeWhile_imp hte) (by decide)
    · exact hdr
  unfold jsNumUnsigned
  split
  · next heq => rw [heq] at hrest; cases hrest
  · next frac heq =>
    rw [heq] at hrest
    have hfrac : ',' ∈ frac := by
      rcases List.mem_cons.mp hrest with he | hm
      · cases he
      · exact hm
    have hnall : ¬ frac.all Char.isDigit = true := fun hcontra =>
      absurd (List.all_eq_true.mp hcontra ',' hfrac) (by decide)
    have hall : frac.all Char.isDigit = false := Bool.eq_false_iff.mpr hnall
    rw [hall]
    simp
  · rfl

theorem jsNumber_none_of_comma {l : List Char} (h : ',' ∈ l) :
    jsNumber l = none := by
  cases l with
  | nil => cases h
  | cons c rest =>
    simp only [jsNumber]
    by_cases hc : c == '-'
    · rw [if_pos hc]
      have hrest : ',' ∈ rest := by
        rcases List.mem_cons.mp h with he | hm
        · rw [beq_iff_eq] at hc; rw [hc] at he; cases he
        · exact hm
      rw [jsNumUnsigned_none_of_comma hrest]
      rfl
    · rw [if_neg hc, jsNumUnsigned_none_of_comma h]

theorem comma_mem_dotCollapse {s : List Char} (h : ',' ∈ s) :
    ',' ∈ dotCollapse s := by
  unfold dotCollapse
  by_cases hp : 2 < (s.splitOn '.').length
  · rw [if_pos hp]
    obtain ⟨t, ht, hxt⟩ :=
      exists_mem_splitOnP (p := (· == '.')) h (by decide)
    have ht' : t ∈ s.splitOn '.' := by
      simpa [List.splitOn] using ht
    have hne : s.splitOn '.' ≠ [] := by
      simpa [List.splitOn] using List.splitOnP_ne_nil (· == '.') s
    rw [← List.dropLast_append_getLast hne] at ht'
    rcases List.mem_append.mp ht' with hdl | hlast
    · exact List.mem_append_left _ (List.mem_flatten_of_mem hdl hxt)
    · rcases List.mem_singleton.mp hlast with rfl
      refine List.mem_append_right _ (List.mem_cons_of_mem _ ?_)
      rw [List.getLast?_eq_getLast_of_ne_nil hne]
      exact hxt
  · rw [if_neg hp]
    exact h

theorem commaStage_of_no_dot {s : List Char} (hc : ',' ∈ s) (hd : '.' ∉ s) :
    commaStage s = replaceFirstComma s := by
  unfold commaStage
  rw [if_pos]
  rw [Bool.and_eq_true, Bool.not_eq_true']
  exact ⟨List.contains_iff_exists_mem_beq.mpr ⟨',', hc, by decide⟩, by
    rw [← Bool.not_eq_true, List.contains_iff_exists_mem_beq]
    rintro ⟨x, hx, hbeq⟩
    rw [beq_iff_eq] at hbeq
    exact hd (hbeq ▸ hx)⟩

theorem commaStage_of_dot {s : List Char} (hd : '.' ∈ s) :
    commaStage s = s := by
  unfold commaStage
  rw [if_neg]
  rw [Bool.and_eq_true, Bool.not_eq_true']
  rintro ⟨-, hnd⟩
  rw [← Bool.not_eq_true, List.contains_iff_exists_mem_beq] at hnd
  exact hnd ⟨'.', hd, by decide⟩

theorem commaStage_of_no_comma {s : List Char} (hc : ',' ∉ s) :
    commaStage s = s := by
  unfold commaStage
  rw [if_neg]
  rw [Bool.and_eq_true]
  rintro ⟨hcc, -⟩
  rcases List.contains_iff_exists_mem_beq.mp hcc with ⟨x, hx, hbeq⟩
  rw [beq_iff_eq] at hbeq
  exact hc (hbeq ▸ hx)

theorem amountSift_map_commaToDot (l : List Char) :
    amountSift (l.map commaToDot) = (amountSift l).map commaToDot := by
  have hws : jsWs ∘ commaToDot = jsWs := by
    funext c
    by_cases hc : c = ','
    · subst hc; rfl
    · simp [commaToDot, hc]
  have hac : amountChar ∘ commaToDot = amountChar := by
    funext c
    by_cases hc : c = ','
    · subst hc; rfl
    · simp [commaToDot, hc]
  unfold amountSift trimChars
  rw [List.dropWhile_map, hws, ← List.map_reverse, List.dropWhile_map, hws,
    ← List.map_reverse, List.filter_map, hac]

/-- Claim C6: in `parseAmountLike` a comma is treated as the decimal
separator exactly when no period is present — for a string with one comma
and no period the parse result equals that of the same string with the
comma replaced by a period; when both a comma and a period are present the
comma is not interpreted (the conversion is `NaN` and the result the empty
string). -/
theorem comma_decimal_iff_no_period (l : List Char) :
    (l.count ',' = 1 → '.' ∉ l →
      parseAmountChars l = parseAmountChars (l.map commaToDot)) ∧
    (',' ∈ l → '.' ∈ l → parseAmountChars l = "") := by
  constructor
  · intro h1 h2
    have hcount : (amountSift l).count ',' = 1 := by
      rw [count_amountSift (by decide)]
      exact h1
    have hmem : ',' ∈ amountSift l := by
      rw [← List.count_pos_iff]
      omega
    have hnodot : '.' ∉ amountSift l := fun hm => h2 (mem_of_mem_amountSift hm)
    have hnm : ',' ∉ (amountSift l).map commaToDot := by
      intro hm
      rcases List.mem_map.mp hm with ⟨d, _, he⟩
      by_cases hdc : d = ','
      · subst hdc; simp [commaToDot] at he
      · simp [commaToDot, hdc] at he
    have key : commaStage (amountSift l) =
        commaStage (amountSift (l.map commaToDot)) := by
      rw [commaStage_of_no_dot hmem hnodot, amountSift_map_commaToDot,
        commaStage_of_no_comma hnm, replaceFirstComma_eq_map hcount]
    unfold parseAmountChars
    rw [key]
  · intro h1 h2
    have hc : ',' ∈ amountSift l := by
      rw [← List.count_pos_iff, count_amountSift (by decide)]
      rw [← List.count_pos_iff] at h1
      omega
    have hd : '.' ∈ amountSift l := by
      rw [← List.count_pos_iff, count_amountSift (by decide)]
      rw [← List.count_pos_iff] at h2
      omega
    unfold parseAmountChars
    rw [commaStage_of_dot hd]
    have hcm : ',' ∈ dotCollapse (amountSift l) := comma_mem_dotCollapse hc
    unfold amountFormat
    rw [jsNumber_none_of_comma hcm]

/-- Witness for C6: `"50,5"` parses like `"50.5"` (one comma, no period),
and `"1.2,5"` (comma and period) yields the empty string. -/
theorem comma_decimal_iff_no_period_witness :
    parseAmountChars "50,5".toList = parseAmountChars ("50,5".toList.map commaToDot) ∧
    parseAmountChars "1.2,5".toList = "" :=
  ⟨(comma_decimal_iff_no_period "50,5".toList).1 (by decide) (by decide),
   (comma_decimal_iff_no_period "1.2,5".toList).2 (by decide) (by decide)⟩

theorem toNat_ofNat_of_valid {n : Nat} (h : n.isValidChar) :
    (Char.ofNat n).toNat = n := by
  rw [Char.ofNat, dif_pos h]
  rfl

theorem allowedChar_iff {c : Char} :
    allowedChar c = true ↔
      ((48 ≤ c.toNat ∧ c.toNat ≤ 57) ∨ (97 ≤ c.toNat ∧ c.toNat ≤ 122) ∨
        (1072 ≤ c.toNat ∧ c.toNat ≤ 1103) ∨ c.toNat = 1105 ∨
        c.toNat = 44 ∨ c.toNat = 45 ∨ c.toNat = 46) := by
  unfold allowedChar
  exact decide_eq_true_iff

theorem toLowerRu_of_keep {c : Char} (h : keepChar c = true) :
    toLowerRu c = c := by
  unfold keepChar at h
  rw [Bool.or_eq_true] at h
  rcases h with hall | hsp
  · have hn := allowedChar_iff.mp hall
    unfold toLowerRu
    rw [if_neg (by omega), if_neg (by omega), if_neg (by omega)]
  · rw [beq_iff_eq] at hsp
    subst hsp
    decide

theorem corrections_values_ok : ∀ kv ∈ corrections,
    kv.2 ≠ [] ∧ (∀ c ∈ kv.2, allowedChar c = true) ∧
    List.lookup kv.2 corrections = none := by
  decide

theorem lookup_some_mem {α β : Type} [BEq α] {k : α} {l : List (α × β)} {v : β}
    (h : List.lookup k l = some v) : ∃ k', (k', v) ∈ l := by
  induction l with
  | nil => cases h
  | cons p l ih =>
    rcases p with ⟨a, b⟩
    by_cases hk : k == a
    · simp only [List.lookup, hk] at h
      cases h
      exact ⟨a, List.mem_cons_self _ _⟩
    · simp only [List.lookup, hk] at h
      obtain ⟨k', hk'⟩ := ih (by simpa using h)
      exact ⟨k', List.mem_cons_of_mem _ hk'⟩

theorem correctToken_idem (t : List Char) :
    correctToken (correctToken t) = correctToken t := by
  cases hl : List.lookup t corrections with
  | none => simp [correctToken, hl]
  | some v =>
    have hv : List.lookup v corrections = none := by
      obtain ⟨k', hmem⟩ := lookup_some_mem hl
      exact (corrections_values_ok (k', v) hmem).2.2
    simp [correctToken, hl, hv]

theorem correctToken_props {t : List Char} (hne : t ≠ []) (hsp : ' ' ∉ t) :
    correctToken t ≠ [] ∧ ' ' ∉ correctToken t := by
  unfold correctToken
  cases hl : List.lookup t corrections with
  | none => exact ⟨hne, hsp⟩
  | some v =>
    obtain ⟨k', hmem⟩ := lookup_some_mem hl
    obtain ⟨hvne, hvall, -⟩ := corrections_values_ok (k', v) hmem
    refine ⟨hvne, fun hm => ?_⟩
    exact absurd (hvall ' ' hm) (by decide)

theorem keep_of_mem_correctToken {t : List Char}
    (ht : ∀ x ∈ t, keepChar x = true) :
    ∀ x ∈ correctToken t, keepChar x = true := by
  unfold correctToken
  cases hl : List.lookup t corrections with
  | none => exact ht
  | some v =>
    intro x hx
    obtain ⟨k', hmem⟩ := lookup_some_mem hl
    have hall := (corrections_values_ok (k', v) hmem).2.1 x hx
    unfold keepChar
    rw [hall]
    rfl

theorem mem_toks {t l : List Char} (h : t ∈ toks l) :
    t ≠ [] ∧ ' ' ∉ t ∧ ∀ x ∈ t, x ∈ l := by
  unfold toks at h
  have h1 := List.mem_filter.mp h
  have hsp : t ∈ List.splitOnP (· == ' ') l := by
    simpa [List.splitOn] using h1.1
  refine ⟨?_, ?_, ?_⟩
  · intro he
    rw [he] at h1
    simp at h1
  · intro hm
    have := (mem_of_mem_splitOnP hsp hm).2
    simp at this
  · intro x hx
    exact (mem_of_mem_splitOnP hsp hx).1

theorem mem_joinTokens :
    ∀ {ts : List (List Char)} {x : Char},
      x ∈ joinTokens ts → x = ' ' ∨ ∃ t ∈ ts, x ∈ t := by
  intro ts
  induction ts with
  | nil => intro x hx; cases hx
  | cons t ts ih =>
    cases ts with
    | nil =>
      intro x hx
      exact Or.inr ⟨t, List.mem_cons_self _ _, by simpa [joinTokens] using hx⟩
    | cons t' ts' =>
      intro x hx
      rw [show joinTokens (t :: t' :: ts') = t ++ ' ' :: joinTokens (t' :: ts')
        from rfl] at hx
      rcases List.mem_append.mp hx with h1 | h2
      · exact Or.inr ⟨t, List.mem_cons_self _ _, h1⟩
      · rcases List.mem_cons.mp h2 with rfl | h3
        · exact Or.inl rfl
        · rcases ih h3 with hsp | ⟨u, hu, hxu⟩
          · exact Or.inl hsp
          · exact Or.inr ⟨u, List.mem_cons_of_mem _ hu, hxu⟩

theorem toks_joinTokens :
    ∀ {ts : List (List Char)}, (∀ t ∈ ts, t ≠ [] ∧ ' ' ∉ t) →
      toks (joinTokens ts) = ts := by
  intro ts
  induction ts with
  | nil => intro _; rfl
  | cons t ts ih =>
    intro h
    obtain ⟨htne, htsp⟩ := h t (List.mem_cons_self _ _)
    have hnosep : ∀ x ∈ t, ¬((x == ' ') = true) := by
      intro x hx hbeq
      rw [beq_iff_eq] at hbeq
      exact htsp (hbeq ▸ hx)
    cases ts with
    | nil =>
      unfold toks
      rw [show joinTokens [t] = t from rfl, List.splitOn,
        List.splitOnP_eq_single _ _ hnosep]
      simp [List.filter, List.isEmpty_eq_false_iff_exists_mem.mpr
        ⟨t.head htne, List.head_mem htne⟩]
    | cons t' ts' =>
      have ih' := ih (fun u hu => h u (List.mem_cons_of_mem _ hu))
      unfold toks at ih' ⊢
      rw [show joinTokens (t :: t' :: ts') = t ++ ' ' :: joinTokens (t' :: ts')
        from rfl, List.splitOn, List.splitOnP_first _ t hnosep ' ' (by decide)]
      rw [List.splitOn] at ih'
      simp only [List.filter]
      rw [show (t.isEmpty : Bool) = false from
        List.isEmpty_eq_false_iff_exists_mem.mpr ⟨t.head htne, List.head_mem htne⟩]
      simp only [Bool.not_false]
      rw [ih']

theorem normChars_chars {l : List Char} : ∀ x ∈ normChars l, keepChar x = true := by
  intro x hx
  unfold normChars at hx
  rcases mem_joinTokens hx with rfl | ⟨t, ht, hxt⟩
  · decide
  · unfold tokensOf at ht
    rcases List.mem_map.mp ht with ⟨t₀, ht₀, rfl⟩
    obtain ⟨-, -, hsub⟩ := mem_toks ht₀
    have hkeep : ∀ y ∈ t₀, keepChar y = true := fun y hy =>
      (List.mem_filter.mp (hsub y hy)).2
    exact keep_of_mem_correctToken hkeep x hxt

theorem cleanChars_of_keep {m : List Char} (h : ∀ x ∈ m, keepChar x = true) :
    cleanChars m = m := by
  unfold cleanChars
  have h1 : m.map toLowerRu = m := by
    calc m.map toLowerRu = m.map id :=
          List.map_congr_left fun x hx => toLowerRu_of_keep (h x hx)
      _ = m := List.map_id m
  rw [h1]
  exact List.filter_eq_self.mpr h

theorem tokensOf_props (l : List Char) : ∀ t ∈ tokensOf l, t ≠ [] ∧ ' ' ∉ t := by
  intro t ht
  unfold tokensOf at ht
  rcases List.mem_map.mp ht with ⟨t₀, ht₀, rfl⟩
  obtain ⟨hne, hsp, -⟩ := mem_toks ht₀
  exact correctToken_props hne hsp

theorem tokensOf_normChars (l : List Char) : tokensOf (normChars l) = tokensOf l := by
  conv_lhs => rw [tokensOf]
  rw [cleanChars_of_keep normChars_chars,
    show normChars l = joinTokens (tokensOf l) from rfl,
    toks_joinTokens (tokensOf_props l)]
  unfold tokensOf
  rw [List.map_map]
  exact List.map_congr_left fun t _ => correctToken_idem t

theorem normChars_idem (l : List Char) : normChars (normChars l) = normChars l := by
  show joinTokens (tokensOf (normChars l)) = normChars l
  rw [tokensOf_normChars]
  rfl

/-- Claim C5: `normalize` is idempotent — for every string `x`, including
the empty string, `normalize (normalize x) = normalize x`; `normalize` is
a total function into strings by construction, with no failure mode. -/
theorem normalize_idempotent (x : String) :
    normalize (normalize x) = normalize x :=
  congrArg String.mk (normChars_idem x.data)

end AEProject
